import Mathlib

/-!
Verification development for the HyC-LoRA repository core:
tensor shape adapters and quantized-LoRA compute (`models/utils/compute_utils.py`),
the fused RMS-normalization kernels (`operators/rmsnorm_kernels.py`),
and the evaluation-harness answer extraction (`utils/math_10k/compute_metrics.py`).

Tensors are embedded as functions over `Fin`-indexed coordinates (logical index
semantics of the torch views), with exact rational arithmetic standing for the
float compute domain; the float dtype promotions in the source are identities
in this exact domain.  The external `bitsandbytes` dequantizer is an opaque
collaborator: functions that call it are parameterized by the full-precision
matrix it returns.
-/

set_option maxHeartbeats 1000000

namespace ComputeUtils

/-- Embeds `hidden_to_head_shape(x, num_heads)`: reshape (b, s, h) to
(b, s, num_heads, head_dim) with `head_dim = h // num_heads`, then
`transpose(1, 2)`.  Logical element (bi, hi, si, di) reads
`x[bi, si, hi * head_dim + di]`. -/
def hidden_to_head_shape {b s h : ℕ} (x : Fin b → Fin s → Fin h → ℚ) (num_heads : ℕ) :
    Fin b → Fin num_heads → Fin s → Fin (h / num_heads) → ℚ :=
  fun bi hi si di =>
    x bi si ⟨hi.1 * (h / num_heads) + di.1, by
      have h1 : hi.1 * (h / num_heads) + di.1 < (hi.1 + 1) * (h / num_heads) := by
        have := di.2
        calc hi.1 * (h / num_heads) + di.1
            < hi.1 * (h / num_heads) + (h / num_heads) := Nat.add_lt_add_left di.2 _
          _ = (hi.1 + 1) * (h / num_heads) := by ring
      have h2 : (hi.1 + 1) * (h / num_heads) ≤ num_heads * (h / num_heads) :=
        Nat.mul_le_mul_right _ hi.2
      have h3 : num_heads * (h / num_heads) ≤ h := by
        rw [Nat.mul_comm]; exact Nat.div_mul_le_self h num_heads
      omega⟩

/-- Embeds `head_to_hidden_shape(x)`: `transpose(1, 2)` from (b, nh, s, hd) to
(b, s, nh, hd), then reshape to (b, s, nh * hd).  Logical element (bi, si, j)
reads `x[bi, j / hd, si, j % hd]`. -/
def head_to_hidden_shape {b nh s hd : ℕ} (x : Fin b → Fin nh → Fin s → Fin hd → ℚ) :
    Fin b → Fin s → Fin (nh * hd) → ℚ :=
  fun bi si j =>
    x bi ⟨j.1 / hd, by
        rcases Nat.eq_zero_or_pos hd with h0 | h0
        · exact absurd j.2 (by simp [h0])
        · exact Nat.div_lt_of_lt_mul (Nat.mul_comm nh hd ▸ j.2)⟩
      si ⟨j.1 % hd, by
        rcases Nat.eq_zero_or_pos hd with h0 | h0
        · exact absurd j.2 (by simp [h0])
        · exact Nat.mod_lt _ h0⟩

/-- The bias term added to the main path: zero when the bias is absent,
the row-broadcast bias vector otherwise.  (Statement-side vocabulary for the
`+ b if b is not None` branch of `lora_forward`.) -/
def biasTerm {m o : ℕ} (bias : Option (Fin o → ℚ)) : Matrix (Fin m) (Fin o) ℚ :=
  match bias with
  | none => 0
  | some bv => Matrix.of fun _ j => bv j

/-- Embeds `lora_forward(w, w_quant_state, w_lora_a, w_lora_b, b, x)`.
`wDq` stands for the output of the external `BF.dequantize_nf4(w, w_quant_state)`
call, a full-precision (out_features, in_features) matrix; the code transposes
it with `.t()` before the matmul.  The leading batch/sequence dims of `x` are
modelled as a single flattened dimension `m`.  Returns
`(x_main + x_lora, x_main, x_lora_a)` exactly as the code does; dtype
promotions (`.to(w_dequant.dtype)`) are identities here. -/
def lora_forward {m i r o : ℕ} (wDq : Matrix (Fin o) (Fin i) ℚ)
    (w_lora_a : Matrix (Fin i) (Fin r) ℚ) (w_lora_b : Matrix (Fin r) (Fin o) ℚ)
    (bias : Option (Fin o → ℚ)) (x : Matrix (Fin m) (Fin i) ℚ) :
    Matrix (Fin m) (Fin o) ℚ × Matrix (Fin m) (Fin o) ℚ × Matrix (Fin m) (Fin r) ℚ :=
  let w_dequant := wDq.transpose
  let x_main :=
    match bias with
    | some bv => x * w_dequant + Matrix.of fun _ j => bv j
    | none => x * w_dequant
  let x_lora_a := x * w_lora_a
  let x_lora := x_lora_a * w_lora_b
  (x_main + x_lora, x_main, x_lora_a)

/-- Embeds `lora_backward(w, w_quant_state, w_lora_a, w_lora_b, x, x_lora_a, grad_y)`.
`wDq` again stands for the dequantized (out_features, in_features) base weight;
the code forms `w_dequant = dequantize(...).t()` and later uses `w_dequant.T`.
Returns the triple `(grad_w_lora_a, grad_w_lora_b, grad_x)`; no slot for a
base-weight gradient exists. -/
def lora_backward {m i r o : ℕ} (wDq : Matrix (Fin o) (Fin i) ℚ)
    (w_lora_a : Matrix (Fin i) (Fin r) ℚ) (w_lora_b : Matrix (Fin r) (Fin o) ℚ)
    (x : Matrix (Fin m) (Fin i) ℚ) (x_lora_a : Matrix (Fin m) (Fin r) ℚ)
    (grad_y : Matrix (Fin m) (Fin o) ℚ) :
    Matrix (Fin i) (Fin r) ℚ × Matrix (Fin r) (Fin o) ℚ × Matrix (Fin m) (Fin i) ℚ :=
  let w_dequant := wDq.transpose
  let grad_medium := grad_y * w_lora_b.transpose
  let grad_w_lora_a := x.transpose * grad_medium
  let grad_w_lora_b := x_lora_a.transpose * grad_y
  let grad_x := grad_y * w_dequant.transpose
  let grad_x2 := grad_x + grad_medium * w_lora_a.transpose
  (grad_w_lora_a, grad_w_lora_b, grad_x2)

/-- Embeds `repeat_kv(hidden_states, n_rep)`: expand (b, kvh, s, d) over a new
`n_rep` axis and flatten it into the head axis, giving (b, kvh * n_rep, s, d).
Logical element (bi, hi, si, di) reads `x[bi, hi / n_rep, si, di]`.  The code's
`n_rep == 1` early return is the same map. -/
def repeat_kv {b kvh s d : ℕ} (x : Fin b → Fin kvh → Fin s → Fin d → ℚ) (n_rep : ℕ) :
    Fin b → Fin (kvh * n_rep) → Fin s → Fin d → ℚ :=
  fun bi hi si di =>
    x bi ⟨hi.1 / n_rep, by
        rcases Nat.eq_zero_or_pos n_rep with h0 | h0
        · exact absurd hi.2 (by simp [h0])
        · exact Nat.div_lt_of_lt_mul (Nat.mul_comm kvh n_rep ▸ hi.2)⟩
      si di

/-- Embeds `repeat_kv_backward(grad_output, n_rep)`: reshape the expanded head
axis (size eh) back into `(eh / n_rep, n_rep)` and sum over the `n_rep` axis. -/
def repeat_kv_backward {b eh s d : ℕ} (g : Fin b → Fin eh → Fin s → Fin d → ℚ)
    (n_rep : ℕ) : Fin b → Fin (eh / n_rep) → Fin s → Fin d → ℚ :=
  fun bi ki si di =>
    ∑ rr : Fin n_rep,
      g bi ⟨ki.1 * n_rep + rr.1, by
          have h1 : ki.1 * n_rep + rr.1 < (ki.1 + 1) * n_rep := by
            calc ki.1 * n_rep + rr.1 < ki.1 * n_rep + n_rep := Nat.add_lt_add_left rr.2 _
              _ = (ki.1 + 1) * n_rep := by ring
          have h2 : (ki.1 + 1) * n_rep ≤ (eh / n_rep) * n_rep :=
            Nat.mul_le_mul_right _ ki.2
          have h3 : (eh / n_rep) * n_rep ≤ eh := Nat.div_mul_le_self eh n_rep
          omega⟩
        si di

end ComputeUtils

namespace RmsNorm

/-- Embeds `triton.next_power_of_2(n)`: the smallest power of two that is
at least `n` (for `n = 0` this gives `1`). -/
def nextPow2 (n : ℕ) : ℕ := 2 ^ Nat.clog 2 n

/-- Embeds `MAX_FUSED_SIZE = 65536 // x.element_size()` from `rmsnorm_forward`. -/
def MAX_FUSED_SIZE (elementSize : ℕ) : ℕ := 65536 / elementSize

/-- Embeds `BLOCK_SIZE = min(MAX_FUSED_SIZE, triton.next_power_of_2(N))`. -/
def fwdBlockSize (elementSize N : ℕ) : ℕ :=
  min (MAX_FUSED_SIZE elementSize) (nextPow2 N)

/-- Number of iterations of `for off in range(0, N, BLOCK_SIZE)`. -/
def nchunks (N B : ℕ) : ℕ := (N + B - 1) / B

/-- Embeds the variance loop of `_rms_norm_fwd_fused` for one row: the
block-local accumulator `_var[j]` after all chunks, where each chunk loads
`x[off + j]` under the mask `off + j < N` (masked lanes contribute 0) and adds
the elementwise square. -/
def varAcc (x : ℕ → ℚ) (N B : ℕ) (j : ℕ) : ℚ :=
  ∑ k ∈ Finset.range (nchunks N B),
    (if k * B + j < N then x (k * B + j) else 0) *
    (if k * B + j < N then x (k * B + j) else 0)

/-- Embeds `var = tl.sum(_var, axis=0) / N` of `_rms_norm_fwd_fused`. -/
def varBlocked (x : ℕ → ℚ) (N B : ℕ) : ℚ :=
  (∑ j ∈ Finset.range B, varAcc x N B j) / N

/-- Embeds `rstd = 1 / tl.sqrt(var + eps)` of `_rms_norm_fwd_fused`
(exact real arithmetic in place of float32). -/
noncomputable def rmsRstd (x : ℕ → ℚ) (N B : ℕ) (eps : ℚ) : ℝ :=
  1 / Real.sqrt ((varBlocked x N B + eps : ℚ) : ℝ)

/-- Embeds the output loop of `_rms_norm_fwd_fused`:
`x_hat = x * rstd; y = x_hat * w` at column `j`. -/
noncomputable def rmsY (x w : ℕ → ℚ) (N B : ℕ) (eps : ℚ) (j : ℕ) : ℝ :=
  ((x j : ℚ) : ℝ) * rmsRstd x N B eps * ((w j : ℚ) : ℝ)

/-- Embeds `rmsnorm_forward(x, weight, eps)` for an M-row by N-column input:
computes `BLOCK_SIZE`, raises (modelled as `none`) when `N > BLOCK_SIZE`
(the code's `RuntimeError` for a feature dimension that cannot be tiled
within the 64KB working-set ceiling), and otherwise launches the row kernel
on every row, returning the output matrix and the per-row `rstd` vector. -/
noncomputable def rmsnorm_forward (elementSize M N : ℕ) (x : ℕ → ℕ → ℚ)
    (w : ℕ → ℚ) (eps : ℚ) : Option ((ℕ → ℕ → ℝ) × (ℕ → ℝ)) :=
  let BLOCK_SIZE := fwdBlockSize elementSize N
  if N > BLOCK_SIZE then none
  else some ((fun r j => rmsY (x r) w N BLOCK_SIZE eps j),
             (fun r => rmsRstd (x r) N BLOCK_SIZE eps))

/-- Embeds the `GROUP_SIZE_M` heuristic of `rmsnorm_backward` (a chain of
non-exclusive `if` statements, so the last satisfied test wins). -/
def GROUP_SIZE_M (N : ℕ) : ℕ :=
  let g0 := 64
  let g1 := if N ≤ 8192 then 96 else g0
  let g2 := if N ≤ 4096 then 128 else g1
  if N ≤ 1024 then 256 else g2

/-- Embeds `xhat = x * rstd` of `_rms_norm_bwd_dx_fused` for row `r`, column `j`. -/
def bwdXhat (x : ℕ → ℕ → ℚ) (rstd : ℕ → ℚ) (r j : ℕ) : ℚ := x r j * rstd r

/-- Embeds `wdy = w * dy` of `_rms_norm_bwd_dx_fused`. -/
def bwdWdy (w : ℕ → ℚ) (dy : ℕ → ℕ → ℚ) (r j : ℕ) : ℚ := w j * dy r j

/-- Embeds `c1 = tl.sum(xhat * wdy, axis=0) / N`. -/
def bwdC1 (N : ℕ) (x : ℕ → ℕ → ℚ) (w : ℕ → ℚ) (dy : ℕ → ℕ → ℚ) (rstd : ℕ → ℚ)
    (r : ℕ) : ℚ :=
  (∑ j ∈ Finset.range N, bwdXhat x rstd r j * bwdWdy w dy r j) / N

/-- Embeds `c2 = tl.sum(wdy, axis=0) / N`. -/
def bwdC2 (N : ℕ) (w : ℕ → ℚ) (dy : ℕ → ℕ → ℚ) (r : ℕ) : ℚ :=
  (∑ j ∈ Finset.range N, bwdWdy w dy r j) / N

/-- Embeds `dx = (wdy - (xhat * c1 + c2)) * rstd` of `_rms_norm_bwd_dx_fused`. -/
def bwdDx (N : ℕ) (x : ℕ → ℕ → ℚ) (w : ℕ → ℚ) (dy : ℕ → ℕ → ℚ) (rstd : ℕ → ℚ)
    (r j : ℕ) : ℚ :=
  (bwdWdy w dy r j - (bwdXhat x rstd r j * bwdC1 N x w dy rstd r + bwdC2 N w dy r))
    * rstd r

/-- Embeds `partial_dw = (dy * xhat).to(w.dtype)` of `_rms_norm_bwd_dx_fused`:
row `r`'s contribution to the weight gradient at column `j`. -/
def dwRow (dy x : ℕ → ℕ → ℚ) (rstd : ℕ → ℚ) (r j : ℕ) : ℚ :=
  dy r j * bwdXhat x rstd r j

/-- The contents of the per-group partial accumulator `DW[g, j]` after all rows
are processed: the sum of the contributions of the rows assigned to group `g`
by `lock_id = row % GROUP_SIZE_M`.  (`contrib` is the per-row contribution,
`dwRow` in the kernel.) -/
def groupAcc (contrib : ℕ → ℕ → ℚ) (M G g j : ℕ) : ℚ :=
  ∑ t ∈ (Finset.range M).filter (fun t => t % G = g), contrib t j

/-- Embeds `rmsnorm_backward(dy, x, w, m, v, needs_inputs_grad, eps, ...)`.
When `needs_inputs_grad` is set the kernel is launched over all rows and `dx`
is produced; in both cases the function returns the pair `(dx, None)` — the
partial weight-gradient buffer `_dw` is a local allocation that is never
returned. -/
def rmsnorm_backward (N : ℕ) (dy x : ℕ → ℕ → ℚ) (w : ℕ → ℚ) (rstd : ℕ → ℚ)
    (needs_inputs_grad : Bool) :
    Option (ℕ → ℕ → ℚ) × Option (ℕ → ℕ → ℚ) :=
  if needs_inputs_grad then
    (some (fun r j => bwdDx N x w dy rstd r j), none)
  else
    (none, none)

/-- Shared state of the backward kernel's weight-gradient reduction: one
program counter per row-processing unit (0 = before the spin loop, 1 = inside
the critical section having won the `atomic_cas`, 2 = finished), and the
per-lock-group lock word, first-writer counter and partial accumulator. -/
structure LockState where
  pc : ℕ → ℕ
  lock : ℕ → Bool
  cnt : ℕ → ℕ
  acc : ℕ → ℕ → ℚ

/-- Interleaved small-step semantics of the locked accumulation in
`_rms_norm_bwd_dx_fused`, for `M` row units, group assignment `gr`
(`row % GROUP_SIZE_M` in the kernel) and per-row contribution `c`
(`partial_dw`).  `acquire` is a successful `atomic_cas(Lock, 0, 1)` (it only
fires while the lock is free — a failed CAS loops and changes nothing);
`crit` is the body executed under the lock: read `Count`, either overwrite the
uninitialized accumulator (first writer) or add to it, set `Count` to 1, store,
and release the lock with `atomic_xchg(Lock, 0)`. -/
inductive LockStep (M : ℕ) (gr : ℕ → ℕ) (c : ℕ → ℕ → ℚ) : LockState → LockState → Prop
  | acquire (s : LockState) (t : ℕ) (ht : t < M) (hpc : s.pc t = 0)
      (hlock : s.lock (gr t) = false) :
      LockStep M gr c s
        ⟨Function.update s.pc t 1, Function.update s.lock (gr t) true, s.cnt, s.acc⟩
  | crit (s : LockState) (t : ℕ) (ht : t < M) (hpc : s.pc t = 1) :
      LockStep M gr c s
        ⟨Function.update s.pc t 2, Function.update s.lock (gr t) false,
         Function.update s.cnt (gr t) 1,
         Function.update s.acc (gr t)
           (if s.cnt (gr t) = 0 then c t else fun j => s.acc (gr t) j + c t j)⟩

/-- The state at kernel launch: every row unit before its spin loop, every
lock free (`locks = torch.zeros`), every counter zero, and the accumulator
buffer holding arbitrary garbage `a0` (`_dw = torch.empty`). -/
def initState (a0 : ℕ → ℕ → ℚ) : LockState :=
  ⟨fun _ => 0, fun _ => false, fun _ => 0, a0⟩

/-- States reachable by any interleaving of the row units from launch. -/
def Reach (M : ℕ) (gr : ℕ → ℕ) (c : ℕ → ℕ → ℚ) (a0 : ℕ → ℕ → ℚ)
    (s : LockState) : Prop :=
  Relation.ReflTransGen (LockStep M gr c) (initState a0) s

/-- The rows of group `g` that have completed their critical section. -/
def doneSet (M : ℕ) (gr : ℕ → ℕ) (pc : ℕ → ℕ) (g : ℕ) : Finset ℕ :=
  (Finset.range M).filter (fun t => gr t = g ∧ pc t = 2)

/-- Inductive invariant of the locked reduction: only dispatched units move;
at most one unit of a group is ever inside the critical section and it holds
the group's lock; a group's counter is zero exactly while no row of the group
has committed; and once some row has committed, the group's accumulator equals
the sum of the committed rows' contributions (the first writer having
overwritten the garbage). -/
structure LockInv (M : ℕ) (gr : ℕ → ℕ) (c : ℕ → ℕ → ℚ) (s : LockState) : Prop where
  idle_out : ∀ t, M ≤ t → s.pc t = 0
  mutex : ∀ t1 t2, t1 < M → t2 < M → s.pc t1 = 1 → s.pc t2 = 1 →
    gr t1 = gr t2 → t1 = t2
  holder_locked : ∀ t, t < M → s.pc t = 1 → s.lock (gr t) = true
  cnt_zero : ∀ g, doneSet M gr s.pc g = ∅ → s.cnt g = 0
  acc_sum : ∀ g, (doneSet M gr s.pc g).Nonempty →
    s.cnt g ≠ 0 ∧ ∀ j, s.acc g j = ∑ t ∈ doneSet M gr s.pc g, c t j

end RmsNorm

namespace Metrics

/-- Embeds Python's `pred.find(trigger)` for a nonempty needle: the first
index at which `trigger` occurs in `l`, or `none` (Python's `-1`). -/
def findSub (t : List Char) : List Char → Option ℕ
  | [] => if ([] : List Char).take t.length = t then some 0 else none
  | c :: rest =>
    if (c :: rest).take t.length = t then some 0
    else (findSub t rest).map (· + 1)

/-- Embeds `extract_output(pred, trigger)`: empty trigger returns `pred`
unchanged; a missing trigger yields the empty answer; otherwise the span after
the trigger, left-stripped of whitespace (`lstrip()`). -/
def extract_output (pred trigger : List Char) : List Char :=
  if trigger = [] then pred
  else
    match findSub trigger pred with
    | none => []
    | some start => (pred.drop (start + trigger.length)).dropWhile Char.isWhitespace

/-- Greedy match of `\d+\.?\d*` at the head of `l` (head is known to be a
digit): the maximal digit run, then an optional dot followed by the maximal
digit run.  Returns the matched characters and the unconsumed suffix. -/
def parseNum (l : List Char) : List Char × List Char :=
  let d1 := l.takeWhile Char.isDigit
  let r1 := l.dropWhile Char.isDigit
  match r1 with
  | '.' :: r2 => (d1 ++ '.' :: r2.takeWhile Char.isDigit, r2.dropWhile Char.isDigit)
  | _ => (d1, r1)

/-- Attempt of the regex `-?\d+\.?\d*` anchored at the head of `l`, as Python's
`re` would match it (a lone `-` not followed by a digit fails, since `\d+`
needs at least one digit after the backtracked optional sign). -/
def tryNum : List Char → Option (List Char × List Char)
  | [] => none
  | c :: rest =>
    if c = '-' then
      match rest with
      | d :: _ =>
        if d.isDigit then
          let p := parseNum rest
          some ('-' :: p.1, p.2)
        else none
      | [] => none
    else if c.isDigit then some (parseNum (c :: rest))
    else none

/-- Left-to-right non-overlapping scan of `re.findall(r'-?\d+\.?\d*', ...)`,
fuelled structurally (each successful match consumes at least one character,
so `l.length` fuel suffices; see `findNums`). -/
def findNumsAux : ℕ → List Char → List (List Char)
  | 0, _ => []
  | _ + 1, [] => []
  | fuel + 1, c :: rest =>
    match tryNum (c :: rest) with
    | some (m, r) => m :: findNumsAux fuel r
    | none => findNumsAux fuel rest

/-- Embeds `re.findall(r'-?\d+\.?\d*', sentence)`. -/
def findNums (l : List Char) : List (List Char) :=
  findNumsAux l.length l

/-- Digit run to natural number, most significant first. -/
def digitsToNat (l : List Char) : ℕ :=
  l.foldl (fun a c => 10 * a + (c.toNat - 48)) 0

/-- Value of an unsigned matched numeral (digits, optional dot, digits). -/
def strToRatPos (l : List Char) : ℚ :=
  let d1 := l.takeWhile Char.isDigit
  let r := l.dropWhile Char.isDigit
  let ip : ℚ := (digitsToNat d1 : ℚ)
  match r with
  | '.' :: r2 =>
    let d2 := r2.takeWhile Char.isDigit
    ip + (digitsToNat d2 : ℚ) / (10 : ℚ) ^ d2.length
  | _ => ip

/-- Embeds Python's `float(...)` on a string matched by `-?\d+\.?\d*`
(exact rational value of the decimal numeral). -/
def strToRat (l : List Char) : ℚ :=
  match l with
  | '-' :: rest => -(strToRatPos rest)
  | _ => strToRatPos l

/-- The float values the harness's numeric path can produce: a finite value or
the `float('inf')` sentinel. -/
inductive PyFloat where
  | val (q : ℚ) : PyFloat
  | inf : PyFloat
deriving DecidableEq

/-- Embeds `extract_answer_number(sentence)`: remove all commas, find all
matches of `-?\d+\.?\d*`, return `float('inf')` when there are none and
`float(pred[-1])` (the LAST match) otherwise.  (The `isinstance(..., str)`
branch of the source is dead code — `float()` already returned a float.) -/
def extract_answer_number (sentence : List Char) : PyFloat :=
  let s1 := sentence.filter (fun c => !(c = ','))
  let pred := findNums s1
  match pred.getLast? with
  | none => PyFloat.inf
  | some m => PyFloat.val (strToRat m)

/-- Embeds the harness's numeric comparison
`abs(float(answer) - generation) <= 0.001`: under IEEE semantics a finite
answer compared against the `inf` sentinel is never within tolerance. -/
def mathNumMatch (answer : ℚ) (g : PyFloat) : Bool :=
  match g with
  | PyFloat.inf => false
  | PyFloat.val q => decide (|answer - q| ≤ 1 / 1000)

end Metrics

namespace Wit

/-- Concrete (1, 1, 4) tensor used to instantiate the shape round trip. -/
def xC6 : Fin 1 → Fin 1 → Fin 4 → ℚ := fun _ _ j => (j.1 : ℚ)

/-- Concrete (1, 2, 1, 1) tensor used to instantiate the repeat-kv adjoint. -/
def xC7 : Fin 1 → Fin 2 → Fin 1 → Fin 1 → ℚ := fun _ k _ _ => (k.1 : ℚ) + 1

/-- The spec's end-to-end normalization example row `x = [1.0, 2.0, 3.0, 4.0]`. -/
def ex4 : ℕ → ℚ := fun i => if i < 4 then (i : ℚ) + 1 else 0

/-- The spec's end-to-end normalization example weight `w = [1, 1, 1, 1]`. -/
def w1 : ℕ → ℚ := fun _ => 1

/-- Group assignment for the concrete two-row, one-group lock execution. -/
def grC8 : ℕ → ℕ := fun _ => 0

/-- Per-row contributions for the concrete lock execution. -/
def cC8 : ℕ → ℕ → ℚ := fun t _ => (t : ℚ) + 1

/-- Garbage initial accumulator contents for the concrete lock execution. -/
def a0C8 : ℕ → ℕ → ℚ := fun _ _ => 37

/-- Concrete lock execution, state 0: launch. -/
def sC8a : RmsNorm.LockState := RmsNorm.initState a0C8

/-- Concrete lock execution, state 1: row 0 acquired its lock. -/
def sC8b : RmsNorm.LockState :=
  ⟨Function.update sC8a.pc 0 1, Function.update sC8a.lock (grC8 0) true,
   sC8a.cnt, sC8a.acc⟩

/-- Concrete lock execution, state 2: row 0 committed and released. -/
def sC8c : RmsNorm.LockState :=
  ⟨Function.update sC8b.pc 0 2, Function.update sC8b.lock (grC8 0) false,
   Function.update sC8b.cnt (grC8 0) 1,
   Function.update sC8b.acc (grC8 0)
     (if sC8b.cnt (grC8 0) = 0 then cC8 0 else fun j => sC8b.acc (grC8 0) j + cC8 0 j)⟩

/-- Concrete lock execution, state 3: row 1 acquired the lock. -/
def sC8d : RmsNorm.LockState :=
  ⟨Function.update sC8c.pc 1 1, Function.update sC8c.lock (grC8 1) true,
   sC8c.cnt, sC8c.acc⟩

/-- Concrete lock execution, state 4: row 1 committed and released. -/
def sC8e : RmsNorm.LockState :=
  ⟨Function.update sC8d.pc 1 2, Function.update sC8d.lock (grC8 1) false,
   Function.update sC8d.cnt (grC8 1) 1,
   Function.update sC8d.acc (grC8 1)
     (if sC8d.cnt (grC8 1) = 0 then cC8 1 else fun j => sC8d.acc (grC8 1) j + cC8 1 j)⟩

end Wit

/-- Claim C6: for every tensor `x` of shape (b, s, h) with `h` divisible by
`num_heads`, `head_to_hidden_shape (hidden_to_head_shape x num_heads)`
returns exactly `x`: every entry comes back at the identical position
(the `Fin.cast` only transports the index along `num_heads * (h / num_heads) = h`). -/
theorem claim_C6 (b s h num_heads : ℕ) (x : Fin b → Fin s → Fin h → ℚ)
    (hdvd : num_heads ∣ h) (bi : Fin b) (si : Fin s)
    (j : Fin (num_heads * (h / num_heads))) :
    ComputeUtils.head_to_hidden_shape (ComputeUtils.hidden_to_head_shape x num_heads)
        bi si j
      = x bi si (Fin.cast (Nat.mul_div_cancel' hdvd) j) := by
  unfold ComputeUtils.head_to_hidden_shape ComputeUtils.hidden_to_head_shape
  congr 1
  apply Fin.ext
  simp only [Fin.coe_cast]
  rw [Nat.mul_comm]
  exact Nat.div_add_mod j.1 (h / num_heads)

/-- Witness for C6 at b = s = 1, h = 4, num_heads = 2, j = 2. -/
theorem claim_C6_witness :
    ((2 : ℕ) ∣ 4) ∧
    ComputeUtils.head_to_hidden_shape (ComputeUtils.hidden_to_head_shape Wit.xC6 2)
        0 0 ⟨2, by decide⟩
      = Wit.xC6 0 0 (Fin.cast (show 2 * (4 / 2) = 4 by decide)
          (⟨2, by decide⟩ : Fin (2 * (4 / 2)))) :=
  ⟨by decide, claim_C6 1 1 4 2 Wit.xC6 (by decide) 0 0 ⟨2, by decide⟩⟩

/-- Claim C7: for every `x` of shape (b, kvh, s, d) and `n_rep ≥ 1`,
`repeat_kv_backward (repeat_kv x n_rep) n_rep` equals `n_rep • x` entrywise:
the grouped reduction is the exact adjoint of broadcast expansion. -/
theorem claim_C7 (b kvh s d n_rep : ℕ) (x : Fin b → Fin kvh → Fin s → Fin d → ℚ)
    (hn : 0 < n_rep) (bi : Fin b) (si : Fin s) (di : Fin d)
    (ki : Fin (kvh * n_rep / n_rep)) :
    ComputeUtils.repeat_kv_backward (ComputeUtils.repeat_kv x n_rep) n_rep bi ki si di
      = (n_rep : ℚ) * x bi (Fin.cast (Nat.mul_div_left kvh hn) ki) si di := by
  unfold ComputeUtils.repeat_kv_backward ComputeUtils.repeat_kv
  have hdiv : ∀ rr : Fin n_rep, (ki.1 * n_rep + rr.1) / n_rep = ki.1 := by
    intro rr
    rw [Nat.mul_comm ki.1 n_rep, Nat.mul_add_div hn, Nat.div_eq_of_lt rr.2, Nat.add_zero]
  have hsummand : ∀ rr : Fin n_rep,
      x bi ⟨(ki.1 * n_rep + rr.1) / n_rep, by
          rcases Nat.eq_zero_or_pos n_rep with h0 | h0
          · omega
          · exact Nat.div_lt_of_lt_mul (Nat.mul_comm kvh n_rep ▸ (by
              have h1 : ki.1 * n_rep + rr.1 < (ki.1 + 1) * n_rep := by
                calc ki.1 * n_rep + rr.1 < ki.1 * n_rep + n_rep :=
                      Nat.add_lt_add_left rr.2 _
                  _ = (ki.1 + 1) * n_rep := by ring
              have h2 : (ki.1 + 1) * n_rep ≤ kvh * n_rep / n_rep * n_rep :=
                Nat.mul_le_mul_right _ ki.2
              have h3 : kvh * n_rep / n_rep * n_rep ≤ kvh * n_rep :=
                Nat.div_mul_le_self _ _
              omega))⟩
        si di
      = x bi (Fin.cast (Nat.mul_div_left kvh hn) ki) si di := by
    intro rr
    congr 1
    apply Fin.ext
    simp only [Fin.coe_cast]
    exact hdiv rr
  calc (∑ rr : Fin n_rep, _) = ∑ _rr : Fin n_rep,
          x bi (Fin.cast (Nat.mul_div_left kvh hn) ki) si di :=
        Finset.sum_congr rfl (fun rr _ => hsummand rr)
    _ = (n_rep : ℚ) * x bi (Fin.cast (Nat.mul_div_left kvh hn) ki) si di := by
        rw [Finset.sum_const, Finset.card_univ, Fintype.card_fin, nsmul_eq_mul]

/-- Witness for C7 at kvh = 2, n_rep = 3, ki = 1. -/
theorem claim_C7_witness :
    (0 < 3) ∧
    ComputeUtils.repeat_kv_backward (ComputeUtils.repeat_kv Wit.xC7 3) 3
        0 ⟨1, by decide⟩ 0 0
      = (3 : ℚ) * Wit.xC7 0 (Fin.cast (show 2 * 3 / 3 = 2 by decide)
          (⟨1, by decide⟩ : Fin (2 * 3 / 3))) 0 0 :=
  ⟨by decide, claim_C7 1 2 1 1 3 Wit.xC7 (by decide) 0 0 0 ⟨1, by decide⟩⟩

/-- Claim C3: `lora_forward` returns exactly
`(main + lora_a_out @ B, main, lora_a_out)` where `main = x @ W + bias`
(`W` the dequantized base weight transposed to (in, out), the bias term being
zero when absent) and `lora_a_out = x @ A`; output shapes are fixed by the
types (leading dim of `x`, trailing dim `out_features`), and the functions are
pure so no input is mutated. -/
theorem claim_C3 {m i r o : ℕ} (wDq : Matrix (Fin o) (Fin i) ℚ)
    (A : Matrix (Fin i) (Fin r) ℚ) (B : Matrix (Fin r) (Fin o) ℚ)
    (bias : Option (Fin o → ℚ)) (x : Matrix (Fin m) (Fin i) ℚ) :
    ComputeUtils.lora_forward wDq A B bias x
      = (x * wDq.transpose + ComputeUtils.biasTerm bias + x * A * B,
         x * wDq.transpose + ComputeUtils.biasTerm bias,
         x * A) := by
  cases bias with
  | none => simp [ComputeUtils.lora_forward, ComputeUtils.biasTerm]
  | some bv => simp [ComputeUtils.lora_forward, ComputeUtils.biasTerm]

/-- Claim C2: `lora_backward` returns exactly the triple
`(grad_A, grad_B, grad_x)` with `grad_A = x^T @ (grad_y @ B^T)`,
`grad_B = x_lora_a^T @ grad_y`, and
`grad_x = grad_y @ W^T + (grad_y @ B^T) @ A^T` where `W = wDq^T` is the
dequantized transposed base weight (so `W^T = wDq`); the triple has no slot
for a base-weight gradient — the quantized weight is frozen. -/
theorem claim_C2 {m i r o : ℕ} (wDq : Matrix (Fin o) (Fin i) ℚ)
    (A : Matrix (Fin i) (Fin r) ℚ) (B : Matrix (Fin r) (Fin o) ℚ)
    (x : Matrix (Fin m) (Fin i) ℚ) (x_lora_a : Matrix (Fin m) (Fin r) ℚ)
    (grad_y : Matrix (Fin m) (Fin o) ℚ) :
    ComputeUtils.lora_backward wDq A B x x_lora_a grad_y
      = (x.transpose * (grad_y * B.transpose),
         x_lora_a.transpose * grad_y,
         grad_y * wDq + grad_y * B.transpose * A.transpose) := by
  simp [ComputeUtils.lora_backward, Matrix.transpose_transpose]

/-- Helper: a chunked, masked double sum over blocks of width `B` covers
exactly the first `min (K * B) N` indices. -/
theorem chunkSum_eq (f : ℕ → ℚ) (B K N : ℕ) :
    ∑ k ∈ Finset.range K, ∑ j ∈ Finset.range B,
        (if k * B + j < N then f (k * B + j) else 0)
      = ∑ i ∈ Finset.range (min (K * B) N), f i := by
  induction K with
  | zero => simp
  | succ K ih =>
    rw [Finset.sum_range_succ, ih]
    have hchunk : ∑ j ∈ Finset.range B, (if K * B + j < N then f (K * B + j) else 0)
        = ∑ i ∈ Finset.Ico (K * B) (min (K * B + B) N), f i := by
      rw [← Finset.Ico_filter_lt, Finset.sum_filter, Finset.sum_Ico_eq_sum_range]
      simp [Nat.add_sub_cancel_left]
    rcases le_or_lt N (K * B) with hN | hN
    · have h1 : min (K * B) N = N := min_eq_right hN
      have h2 : min ((K + 1) * B) N = N :=
        min_eq_right (le_trans hN (Nat.mul_le_mul_right B (Nat.le_succ K)))
      have h3 : min (K * B + B) N ≤ K * B := le_trans (min_le_right _ _) hN
      rw [hchunk, Finset.Ico_eq_empty (by omega)]
      simp [h1, h2]
    · have h1 : min (K * B) N = K * B := min_eq_left (le_of_lt hN)
      have h2 : K * B ≤ min (K * B + B) N := le_min (Nat.le_add_right _ _) (le_of_lt hN)
      rw [hchunk, h1, Finset.range_eq_Ico,
        Finset.sum_Ico_consecutive f (Nat.zero_le _) h2]
      congr 2
      rw [Nat.succ_mul]

/-- Helper: the chunk count `(N + B - 1) / B` covers all `N` columns. -/
theorem ceil_mul_ge (N B : ℕ) (hB : 0 < B) : N ≤ RmsNorm.nchunks N B * B := by
  unfold RmsNorm.nchunks
  have h1 := Nat.div_add_mod (N + B - 1) B
  have h2 : (N + B - 1) % B < B := Nat.mod_lt _ hB
  rw [Nat.mul_comm]
  generalize (N + B - 1) % B = rmd at h1 h2
  generalize B * ((N + B - 1) / B) = t at h1 ⊢
  omega

/-- Helper: the kernel's chunked streaming accumulation of `x*x` computes
exactly `mean(x_i^2)` over the row — no block contribution is lost and no mean
is subtracted. -/
theorem varBlocked_eq_mean (x : ℕ → ℚ) (N B : ℕ) (hB : 0 < B) :
    RmsNorm.varBlocked x N B = (∑ i ∈ Finset.range N, x i ^ 2) / N := by
  unfold RmsNorm.varBlocked RmsNorm.varAcc
  rw [Finset.sum_comm]
  congr 1
  calc ∑ k ∈ Finset.range (RmsNorm.nchunks N B), ∑ j ∈ Finset.range B,
          ((if k * B + j < N then x (k * B + j) else 0) *
           (if k * B + j < N then x (k * B + j) else 0))
      = ∑ k ∈ Finset.range (RmsNorm.nchunks N B), ∑ j ∈ Finset.range B,
          (if k * B + j < N then x (k * B + j) ^ 2 else 0) := by
        refine Finset.sum_congr rfl fun k _ => Finset.sum_congr rfl fun j _ => ?_
        split <;> simp [pow_two]
    _ = ∑ i ∈ Finset.range (min (RmsNorm.nchunks N B * B) N), x i ^ 2 :=
        chunkSum_eq (fun i => x i ^ 2) B (RmsNorm.nchunks N B) N
    _ = ∑ i ∈ Finset.range N, x i ^ 2 := by
        rw [min_eq_right (ceil_mul_ge N B hB)]

/-- Claim C5: the forward wrapper raises (returns `none`) exactly when the row width
`N` exceeds the hard ceiling `65536 // element_size`; for every `N` at or
below the ceiling the fused kernel is enqueued on the full row. -/
theorem claim_C5 (elementSize M N : ℕ) (x : ℕ → ℕ → ℚ) (w : ℕ → ℚ) (eps : ℚ) :
    RmsNorm.rmsnorm_forward elementSize M N x w eps = none ↔ 65536 / elementSize < N := by
  have hnp : N ≤ RmsNorm.nextPow2 N := Nat.le_pow_clog one_lt_two N
  unfold RmsNorm.rmsnorm_forward RmsNorm.fwdBlockSize RmsNorm.MAX_FUSED_SIZE
  dsimp only
  split_ifs with h
  · revert h hnp
    generalize RmsNorm.nextPow2 N = p
    generalize 65536 / elementSize = mx
    intro hnp h
    simp only [true_iff]
    omega
  · revert h hnp
    generalize RmsNorm.nextPow2 N = p
    generalize 65536 / elementSize = mx
    intro hnp h
    have h2 : ¬ mx < N := by omega
    simp [h2]

/-- Helper: rational bracketing of the square root appearing in the spec's
end-to-end example (`var + eps = 7.50001`). -/
theorem sqrt750001_bounds :
    (2.7386 : ℝ) < Real.sqrt ((750001 : ℝ) / 100000) ∧
    Real.sqrt ((750001 : ℝ) / 100000) < 2.7387 :=
  ⟨(Real.lt_sqrt (by norm_num)).mpr (by norm_num),
   (Real.sqrt_lt' (by norm_num)).mpr (by norm_num)⟩

/-- Helper: the example row has `var = 15/2`, so `var + eps` casts to
`750001 / 100000` over the reals. -/
theorem ex4_var_cast :
    ((RmsNorm.varBlocked Wit.ex4 4 4 + 1 / 100000 : ℚ) : ℝ) = (750001 : ℝ) / 100000 := by
  rw [varBlocked_eq_mean Wit.ex4 4 4 (by norm_num)]
  rw [show (∑ i ∈ Finset.range 4, Wit.ex4 i ^ 2) = (30 : ℚ) by
    simp [Finset.sum_range_succ, Wit.ex4]; norm_num]
  push_cast
  norm_num

/-- Helper: bracketing of the example's `rstd = 1 / sqrt(7.5 + 1e-5)`. -/
theorem ex4_rstd_bounds :
    (0.36513 : ℝ) < RmsNorm.rmsRstd Wit.ex4 4 4 (1 / 100000) ∧
    RmsNorm.rmsRstd Wit.ex4 4 4 (1 / 100000) < 0.36516 := by
  unfold RmsNorm.rmsRstd
  rw [ex4_var_cast]
  obtain ⟨hlo, hhi⟩ := sqrt750001_bounds
  have hpos : (0 : ℝ) < Real.sqrt ((750001 : ℝ) / 100000) :=
    Real.sqrt_pos.mpr (by norm_num)
  constructor
  · have h1 : (1 : ℝ) / 2.7387 < 1 / Real.sqrt ((750001 : ℝ) / 100000) :=
      one_div_lt_one_div_of_lt hpos hhi
    have h2 : (0.36513 : ℝ) < 1 / 2.7387 := by norm_num
    linarith
  · have h1 : (1 : ℝ) / Real.sqrt ((750001 : ℝ) / 100000) < 1 / 2.7386 :=
      one_div_lt_one_div_of_lt (by norm_num) hlo
    have h2 : (1 : ℝ) / 2.7386 < 0.36516 := by norm_num
    linarith

/-- Claim C4: per row the forward computes `var = mean(x_i^2)` (the chunked
streaming accumulation, with no mean subtraction), stores
`rstd = 1 / sqrt(var + eps)` and outputs `y_i = (x_i * rstd) * w_i`; on the
spec's example `x = [1, 2, 3, 4]`, `w = [1, 1, 1, 1]`, `eps = 1e-5` this gives
`var = 7.5`, `rstd ≈ 0.36515` and `y ≈ [0.365, 0.730, 1.095, 1.461]`. -/
theorem claim_C4 (N B : ℕ) (x w : ℕ → ℚ) (eps : ℚ) (hB : 0 < B) :
    RmsNorm.varBlocked x N B = (∑ i ∈ Finset.range N, x i ^ 2) / N
    ∧ RmsNorm.rmsRstd x N B eps
        = 1 / Real.sqrt ((RmsNorm.varBlocked x N B + eps : ℚ) : ℝ)
    ∧ (∀ j, RmsNorm.rmsY x w N B eps j
        = ((x j : ℚ) : ℝ) * RmsNorm.rmsRstd x N B eps * ((w j : ℚ) : ℝ))
    ∧ RmsNorm.varBlocked Wit.ex4 4 4 = 15 / 2
    ∧ |RmsNorm.rmsRstd Wit.ex4 4 4 (1 / 100000) - 0.36515| < 1 / 10000
    ∧ |RmsNorm.rmsY Wit.ex4 Wit.w1 4 4 (1 / 100000) 0 - 0.365| < 1 / 1000
    ∧ |RmsNorm.rmsY Wit.ex4 Wit.w1 4 4 (1 / 100000) 1 - 0.730| < 1 / 1000
    ∧ |RmsNorm.rmsY Wit.ex4 Wit.w1 4 4 (1 / 100000) 2 - 1.095| < 1 / 1000
    ∧ |RmsNorm.rmsY Wit.ex4 Wit.w1 4 4 (1 / 100000) 3 - 1.461| < 1 / 1000 := by
  obtain ⟨hlo, hhi⟩ := ex4_rstd_bounds
  have hy : ∀ j : ℕ, RmsNorm.rmsY Wit.ex4 Wit.w1 4 4 (1 / 100000) j
      = ((Wit.ex4 j : ℚ) : ℝ) * RmsNorm.rmsRstd Wit.ex4 4 4 (1 / 100000) := by
    intro j
    unfold RmsNorm.rmsY Wit.w1
    push_cast
    ring
  refine ⟨varBlocked_eq_mean x N B hB, rfl, fun _ => rfl, ?_, ?_, ?_, ?_, ?_, ?_⟩
  · rw [varBlocked_eq_mean Wit.ex4 4 4 (by norm_num)]
    rw [show (∑ i ∈ Finset.range 4, Wit.ex4 i ^ 2) = (30 : ℚ) by
      simp [Finset.sum_range_succ, Wit.ex4]; norm_num]
    norm_num
  · rw [abs_lt]; constructor <;> linarith
  · rw [hy 0, show ((Wit.ex4 0 : ℚ) : ℝ) = 1 by norm_num [Wit.ex4], abs_lt]
    constructor <;> linarith
  · rw [hy 1, show ((Wit.ex4 1 : ℚ) : ℝ) = 2 by norm_num [Wit.ex4], abs_lt]
    constructor <;> linarith
  · rw [hy 2, show ((Wit.ex4 2 : ℚ) : ℝ) = 3 by norm_num [Wit.ex4], abs_lt]
    constructor <;> linarith
  · rw [hy 3, show ((Wit.ex4 3 : ℚ) : ℝ) = 4 by norm_num [Wit.ex4], abs_lt]
    constructor <;> linarith

/-- Witness for C4 at N = B = 4 on the spec's example row. -/
theorem claim_C4_witness :
    (0 < 4) ∧
    RmsNorm.varBlocked Wit.ex4 4 4 = (∑ i ∈ Finset.range 4, Wit.ex4 i ^ 2) / 4 :=
  ⟨by decide, (claim_C4 4 4 Wit.ex4 Wit.w1 (1 / 100000) (by decide)).1⟩

/-- Helper: the backward's group count is always positive. -/
theorem GROUP_SIZE_M_pos (N : ℕ) : 0 < RmsNorm.GROUP_SIZE_M N := by
  unfold RmsNorm.GROUP_SIZE_M
  split_ifs <;> norm_num

/-- Counterexample to C1: `rmsnorm_backward` never exposes the per-group partial
weight-gradient accumulators — even with `needs_inputs_grad` set, its second
return slot is `None`, so the caller has nothing to sum across the group axis. -/
theorem claim_C1_counterexample :
    (RmsNorm.rmsnorm_backward 1 (fun _ _ => 1) (fun _ _ => 1) (fun _ => 1)
      (fun _ => 1) true).2 = none := rfl

/-- Claim C1 (amended): the kernel-accumulated per-group partials (group `g` holding
the sum of `dy * xhat` over the rows with `row % GROUP_SIZE_M = g`) do sum,
across the group axis, to the full weight gradient
`∑ rows dy_row * (x_row * rstd_row)` — but `rmsnorm_backward` keeps the
accumulator buffer local and returns `(dx, None)`, so the summed gradient is
not made available to the caller. -/
theorem claim_C1 (M N : ℕ) (dy x : ℕ → ℕ → ℚ) (w : ℕ → ℚ) (rstd : ℕ → ℚ) :
    (∀ j, ∑ g ∈ Finset.range (RmsNorm.GROUP_SIZE_M N),
        RmsNorm.groupAcc (RmsNorm.dwRow dy x rstd) M (RmsNorm.GROUP_SIZE_M N) g j
      = ∑ r ∈ Finset.range M, dy r j * (x r j * rstd r))
    ∧ (RmsNorm.rmsnorm_backward N dy x w rstd true).2 = none := by
  constructor
  · intro j
    unfold RmsNorm.groupAcc RmsNorm.dwRow RmsNorm.bwdXhat
    exact Finset.sum_fiberwise_of_maps_to
      (fun t _ => Finset.mem_range.mpr (Nat.mod_lt _ (GROUP_SIZE_M_pos N))) _
  · rfl

/-- Helper: a unit moving from the spin loop into the critical section does not
change which rows have committed. -/
theorem doneSet_acquire (M : ℕ) (gr : ℕ → ℕ) (pc : ℕ → ℕ) (t : ℕ)
    (hpc : pc t = 0) (g : ℕ) :
    RmsNorm.doneSet M gr (Function.update pc t 1) g = RmsNorm.doneSet M gr pc g := by
  unfold RmsNorm.doneSet
  apply Finset.filter_congr
  intro u _
  by_cases hut : u = t
  · subst hut
    simp [Function.update_same, hpc]
  · simp [Function.update_noteq hut]

/-- Helper: a unit committing adds exactly itself to its group's done set. -/
theorem doneSet_crit_same (M : ℕ) (gr : ℕ → ℕ) (pc : ℕ → ℕ) (t : ℕ)
    (ht : t < M) (g : ℕ) (hg : gr t = g) :
    RmsNorm.doneSet M gr (Function.update pc t 2) g
      = insert t (RmsNorm.doneSet M gr pc g) := by
  unfold RmsNorm.doneSet
  ext u
  by_cases hut : u = t
  · subst hut
    simp [Function.update_same, ht, hg]
  · simp [Function.update_noteq hut, hut, Finset.mem_insert]

/-- Helper: a unit committing leaves every other group's done set unchanged. -/
theorem doneSet_crit_other (M : ℕ) (gr : ℕ → ℕ) (pc : ℕ → ℕ) (t : ℕ)
    (g : ℕ) (hg : gr t ≠ g) :
    RmsNorm.doneSet M gr (Function.update pc t 2) g = RmsNorm.doneSet M gr pc g := by
  unfold RmsNorm.doneSet
  apply Finset.filter_congr
  intro u _
  by_cases hut : u = t
  · subst hut
    simp [Function.update_same, hg]
  · simp [Function.update_noteq hut]

/-- Helper: a unit inside the critical section has not yet committed. -/
theorem holder_not_done (M : ℕ) (gr : ℕ → ℕ) (pc : ℕ → ℕ) (t : ℕ)
    (hpc : pc t = 1) (g : ℕ) : t ∉ RmsNorm.doneSet M gr pc g := by
  unfold RmsNorm.doneSet
  simp [hpc]

/-- Helper: the invariant holds at kernel launch. -/
theorem lockInv_init (M : ℕ) (gr : ℕ → ℕ) (c : ℕ → ℕ → ℚ) (a0 : ℕ → ℕ → ℚ) :
    RmsNorm.LockInv M gr c (RmsNorm.initState a0) := by
  constructor
  · intro t _; rfl
  · intro t1 t2 _ _ hp1 _ _
    exact absurd hp1 (by simp [RmsNorm.initState])
  · intro t _ hp
    exact absurd hp (by simp [RmsNorm.initState])
  · intro g _; rfl
  · intro g hg
    exfalso
    obtain ⟨u, hu⟩ := hg
    revert hu
    unfold RmsNorm.doneSet RmsNorm.initState
    simp

/-- Helper: every step of the locked reduction preserves the invariant. -/
theorem lockInv_step (M : ℕ) (gr : ℕ → ℕ) (c : ℕ → ℕ → ℚ) (s s' : RmsNorm.LockState)
    (hstep : RmsNorm.LockStep M gr c s s') (hinv : RmsNorm.LockInv M gr c s) :
    RmsNorm.LockInv M gr c s' := by
  cases hstep with
  | acquire t ht hpc hlock =>
    refine ⟨?_, ?_, ?_, ?_, ?_⟩ <;> dsimp only
    · intro u hu
      rw [Function.update_noteq (by omega)]
      exact hinv.idle_out u hu
    · intro t1 t2 h1 h2 hp1 hp2 hgg
      by_cases e1 : t1 = t
      · by_cases e2 : t2 = t
        · rw [e1, e2]
        · exfalso
          rw [Function.update_noteq e2] at hp2
          have hl2 := hinv.holder_locked t2 h2 hp2
          rw [e1] at hgg
          rw [hgg, hl2] at hlock
          simp at hlock
      · by_cases e2 : t2 = t
        · exfalso
          rw [Function.update_noteq e1] at hp1
          have hl1 := hinv.holder_locked t1 h1 hp1
          rw [e2] at hgg
          rw [← hgg, hl1] at hlock
          simp at hlock
        · rw [Function.update_noteq e1] at hp1
          rw [Function.update_noteq e2] at hp2
          exact hinv.mutex t1 t2 h1 h2 hp1 hp2 hgg
    · intro u hu hpu
      by_cases e : u = t
      · rw [e, Function.update_same]
      · rw [Function.update_noteq e] at hpu
        have hlu := hinv.holder_locked u hu hpu
        by_cases eg : gr u = gr t
        · rw [eg, Function.update_same]
        · rw [Function.update_noteq eg]
          exact hlu
    · intro g hg
      rw [doneSet_acquire M gr s.pc t hpc g] at hg
      exact hinv.cnt_zero g hg
    · intro g hg
      rw [doneSet_acquire M gr s.pc t hpc g] at hg
      rw [doneSet_acquire M gr s.pc t hpc g]
      exact hinv.acc_sum g hg
  | crit t ht hpc =>
    refine ⟨?_, ?_, ?_, ?_, ?_⟩ <;> dsimp only
    · intro u hu
      rw [Function.update_noteq (by omega)]
      exact hinv.idle_out u hu
    · intro t1 t2 h1 h2 hp1 hp2 hgg
      by_cases e1 : t1 = t
      · subst e1
        rw [Function.update_same] at hp1
        exact absurd hp1 (by norm_num)
      · by_cases e2 : t2 = t
        · subst e2
          rw [Function.update_same] at hp2
          exact absurd hp2 (by norm_num)
        · rw [Function.update_noteq e1] at hp1
          rw [Function.update_noteq e2] at hp2
          exact hinv.mutex t1 t2 h1 h2 hp1 hp2 hgg
    · intro u hu hpu
      by_cases e : u = t
      · subst e
        rw [Function.update_same] at hpu
        exact absurd hpu (by norm_num)
      · rw [Function.update_noteq e] at hpu
        have hlu := hinv.holder_locked u hu hpu
        by_cases eg : gr u = gr t
        · exact absurd (hinv.mutex u t hu ht hpu hpc eg) e
        · rw [Function.update_noteq eg]
          exact hlu
    · intro g hg
      by_cases eg : gr t = g
      · rw [doneSet_crit_same M gr s.pc t ht g eg] at hg
        exact absurd hg (Finset.insert_ne_empty _ _)
      · rw [doneSet_crit_other M gr s.pc t g eg] at hg
        rw [Function.update_noteq (Ne.symm eg)]
        exact hinv.cnt_zero g hg
    · intro g hg
      by_cases eg : gr t = g
      · subst eg
        rw [doneSet_crit_same M gr s.pc t ht (gr t) rfl]
        constructor
        · rw [Function.update_same]
          norm_num
        · intro j
          rw [Function.update_same]
          by_cases hc : s.cnt (gr t) = 0
          · have hdempty : RmsNorm.doneSet M gr s.pc (gr t) = ∅ := by
              by_contra hne
              have hne' := Finset.nonempty_iff_ne_empty.mpr hne
              exact (hinv.acc_sum (gr t) hne').1 hc
            rw [hdempty]
            simp [hc]
          · have hdne : (RmsNorm.doneSet M gr s.pc (gr t)).Nonempty := by
              by_contra hne
              rw [Finset.not_nonempty_iff_eq_empty] at hne
              exact hc (hinv.cnt_zero _ hne)
            have hsum := (hinv.acc_sum (gr t) hdne).2 j
            have htnotin := holder_not_done M gr s.pc t hpc (gr t)
            rw [Finset.sum_insert htnotin, if_neg hc, hsum]
            ring
      · rw [doneSet_crit_other M gr s.pc t g eg] at hg ⊢
        have hold := hinv.acc_sum g hg
        constructor
        · rw [Function.update_noteq (Ne.symm eg)]
          exact hold.1
        · intro j
          rw [Function.update_noteq (Ne.symm eg)]
          exact hold.2 j

/-- Helper: the invariant holds in every reachable state. -/
theorem lockInv_reach (M : ℕ) (gr : ℕ → ℕ) (c : ℕ → ℕ → ℚ) (a0 : ℕ → ℕ → ℚ)
    (s : RmsNorm.LockState) (h : RmsNorm.Reach M gr c a0 s) :
    RmsNorm.LockInv M gr c s := by
  unfold RmsNorm.Reach at h
  induction h with
  | refl => exact lockInv_init M gr c a0
  | tail _ hbc ih => exact lockInv_step M gr c _ _ hbc ih

/-- Claim C8: under the spinlock-plus-first-writer-flag protocol, (a) the per-group
critical section is mutually exclusive in every reachable state, and (b) for
every group assignment onto `G` groups (each group receiving at least one of
the `M` rows), every degree of concurrency and every interleaving, once all
row units have finished, summing the per-group accumulators reproduces exactly
the sum of all per-row contributions — independent of `G`, of the schedule and
of the garbage initially in the buffer, with no contribution lost or double
counted (exact arithmetic standing in for float reassociation tolerance). -/
theorem claim_C8 (M G : ℕ) (gr : ℕ → ℕ) (c : ℕ → ℕ → ℚ) (a0 : ℕ → ℕ → ℚ)
    (hgr : ∀ t, t < M → gr t < G) :
    (∀ s, RmsNorm.Reach M gr c a0 s →
      ∀ t1 t2, t1 < M → t2 < M → s.pc t1 = 1 → s.pc t2 = 1 → gr t1 = gr t2 → t1 = t2)
    ∧ (∀ s, RmsNorm.Reach M gr c a0 s → (∀ t, t < M → s.pc t = 2) →
        (∀ g, g < G → ∃ t, t < M ∧ gr t = g) →
        ∀ j, ∑ g ∈ Finset.range G, s.acc g j = ∑ t ∈ Finset.range M, c t j) := by
  constructor
  · intro s hreach
    exact (lockInv_reach M gr c a0 s hreach).mutex
  · intro s hreach hdone hsurj j
    have hinv := lockInv_reach M gr c a0 s hreach
    have hds : ∀ g, RmsNorm.doneSet M gr s.pc g
        = (Finset.range M).filter (fun t => gr t = g) := by
      intro g
      unfold RmsNorm.doneSet
      apply Finset.filter_congr
      intro u hu
      have := hdone u (Finset.mem_range.mp hu)
      simp [this]
    have hacc : ∀ g, g < G →
        s.acc g j = ∑ t ∈ (Finset.range M).filter (fun t => gr t = g), c t j := by
      intro g hgG
      obtain ⟨t0, ht0M, ht0g⟩ := hsurj g hgG
      have hne : (RmsNorm.doneSet M gr s.pc g).Nonempty := by
        refine ⟨t0, ?_⟩
        unfold RmsNorm.doneSet
        simp [ht0M, ht0g, hdone t0 ht0M]
      have := (hinv.acc_sum g hne).2 j
      rw [this, hds g]
    calc ∑ g ∈ Finset.range G, s.acc g j
        = ∑ g ∈ Finset.range G, ∑ t ∈ (Finset.range M).filter (fun t => gr t = g), c t j :=
          Finset.sum_congr rfl (fun g hgG => hacc g (Finset.mem_range.mp hgG))
      _ = ∑ t ∈ Finset.range M, c t j :=
          Finset.sum_fiberwise_of_maps_to
            (fun t ht => Finset.mem_range.mpr (hgr t (Finset.mem_range.mp ht))) _

/-- Witness for C8: a complete two-row, one-group execution
(acquire 0, commit 0, acquire 1, commit 1) starting from garbage accumulator
contents; the summed accumulator equals the total contribution at column 0. -/
theorem claim_C8_witness :
    (∀ t, t < 2 → Wit.grC8 t < 1) ∧
    ∑ g ∈ Finset.range 1, Wit.sC8e.acc g 0 = ∑ t ∈ Finset.range 2, Wit.cC8 t 0 := by
  have st1 : RmsNorm.LockStep 2 Wit.grC8 Wit.cC8 Wit.sC8a Wit.sC8b :=
    RmsNorm.LockStep.acquire Wit.sC8a 0 (by norm_num) rfl rfl
  have st2 : RmsNorm.LockStep 2 Wit.grC8 Wit.cC8 Wit.sC8b Wit.sC8c :=
    RmsNorm.LockStep.crit Wit.sC8b 0 (by norm_num) (by decide)
  have st3 : RmsNorm.LockStep 2 Wit.grC8 Wit.cC8 Wit.sC8c Wit.sC8d :=
    RmsNorm.LockStep.acquire Wit.sC8c 1 (by norm_num) (by decide) (by decide)
  have st4 : RmsNorm.LockStep 2 Wit.grC8 Wit.cC8 Wit.sC8d Wit.sC8e :=
    RmsNorm.LockStep.crit Wit.sC8d 1 (by norm_num) (by decide)
  have hreach : RmsNorm.Reach 2 Wit.grC8 Wit.cC8 Wit.a0C8 Wit.sC8e :=
    Relation.ReflTransGen.tail
      (Relation.ReflTransGen.tail
        (Relation.ReflTransGen.tail
          (Relation.ReflTransGen.tail Relation.ReflTransGen.refl st1) st2) st3) st4
  refine ⟨by decide, ?_⟩
  exact (claim_C8 2 1 Wit.grC8 Wit.cC8 Wit.a0C8 (by decide)).2 Wit.sC8e hreach
    (by decide) (fun g hg => ⟨0, by norm_num, by simp [Wit.grC8]; omega⟩) 0

/-- Helper: if the trigger occurs at no position of `pred`, the substring
search reports failure (Python's `find` returning `-1`). -/
theorem findSub_eq_none (t l : List Char) (ht : t ≠ [])
    (h : ∀ i, i < l.length → (l.drop i).take t.length ≠ t) :
    Metrics.findSub t l = none := by
  induction l with
  | nil =>
    simp only [Metrics.findSub]
    rw [List.take_nil, if_neg (fun heq => ht heq.symm)]
  | cons c rest ih =>
    have h0 := h 0 (by simp)
    rw [List.drop_zero] at h0
    have hrest : Metrics.findSub t rest = none := by
      refine ih (fun i hi => ?_)
      have := h (i + 1) (by simp; omega)
      simpa using this
    simp only [Metrics.findSub, hrest]
    rw [if_neg h0]
    rfl

/-- Helper: if the numeric regex matches at no position, the scan finds
nothing, for any fuel. -/
theorem findNumsAux_eq_nil (fuel : ℕ) (l : List Char)
    (h : ∀ i, Metrics.tryNum (l.drop i) = none) :
    Metrics.findNumsAux fuel l = [] := by
  induction fuel generalizing l with
  | zero => rfl
  | succ fuel ih =>
    cases l with
    | nil => rfl
    | cons c rest =>
      have h0 := h 0
      rw [List.drop_zero] at h0
      simp only [Metrics.findNumsAux, h0]
      exact ih rest (fun i => by simpa using h (i + 1))

/-- Claim C9: answer extraction degrades locally instead of raising — a decoded
generation without the trigger substring yields the empty answer, a span
with no parsable numeric literal yields the `float('inf')` sentinel, and the
sentinel can never pass the 0.001-tolerance numeric match, so one malformed
generation only scores that example as incorrect. -/
theorem claim_C9 (pred trigger s : List Char) (ans : ℚ)
    (htrig : trigger ≠ [])
    (habsent : ∀ i, i < pred.length → (pred.drop i).take trigger.length ≠ trigger)
    (hnonum : ∀ i, i < (s.filter (fun c => !(c = ','))).length →
      Metrics.tryNum ((s.filter (fun c => !(c = ','))).drop i) = none) :
    Metrics.extract_output pred trigger = []
    ∧ Metrics.extract_answer_number s = Metrics.PyFloat.inf
    ∧ Metrics.mathNumMatch ans Metrics.PyFloat.inf = false := by
  refine ⟨?_, ?_, rfl⟩
  · unfold Metrics.extract_output
    rw [if_neg htrig, findSub_eq_none trigger pred htrig habsent]
  · have hall : ∀ i, Metrics.tryNum ((s.filter (fun c => !(c = ','))).drop i) = none := by
      intro i
      by_cases hi : i < (s.filter (fun c => !(c = ','))).length
      · exact hnonum i hi
      · rw [List.drop_eq_nil_of_le (by omega)]
        rfl
    simp only [Metrics.extract_answer_number, Metrics.findNums,
      findNumsAux_eq_nil _ _ hall]
    rfl

/-- Witness for C9: a generation without the trigger and an answer span
without any numeric literal. -/
theorem claim_C9_witness :
    (("xyz".toList : List Char) ≠ []
      ∧ (∀ i, i < ("hello".toList : List Char).length →
          (("hello".toList : List Char).drop i).take ("xyz".toList : List Char).length
            ≠ ("xyz".toList : List Char))
      ∧ (∀ i, i < (("abc".toList : List Char).filter (fun c => !(c = ','))).length →
          Metrics.tryNum ((("abc".toList : List Char).filter
            (fun c => !(c = ','))).drop i) = none))
    ∧ Metrics.extract_output ("hello".toList) ("xyz".toList) = []
    ∧ Metrics.extract_answer_number ("abc".toList) = Metrics.PyFloat.inf
    ∧ Metrics.mathNumMatch 0 Metrics.PyFloat.inf = false :=
  ⟨⟨by decide, by decide, by decide⟩,
   claim_C9 ("hello".toList) ("xyz".toList) ("abc".toList) 0
     (by decide) (by decide) (by decide)⟩

/-- Claim C10: `extract_answer_number` removes all commas and converts the LAST
regex match `-?\d+\.?\d*` to a float; concretely
"12 apples minus 3 leaves 9" parses to the matches ["12", "3", "9"] and
yields 9.0, and "1,234" yields 1234.0. -/
theorem claim_C10 (s m : List Char)
    (hlast : (Metrics.findNums (s.filter (fun c => !(c = ',')))).getLast? = some m) :
    Metrics.extract_answer_number s = Metrics.PyFloat.val (Metrics.strToRat m)
    ∧ Metrics.extract_answer_number ("12 apples minus 3 leaves 9".toList)
        = Metrics.PyFloat.val 9
    ∧ Metrics.extract_answer_number ("1,234".toList) = Metrics.PyFloat.val 1234
    ∧ Metrics.findNums ("12 apples minus 3 leaves 9".toList)
        = ["12".toList, "3".toList, "9".toList] := by
  refine ⟨?_, by decide, by decide, by decide⟩
  simp only [Metrics.extract_answer_number, hlast]

/-- Witness for C10 on the one-numeral string "7". -/
theorem claim_C10_witness :
    ((Metrics.findNums (("7".toList : List Char).filter (fun c => !(c = ',')))).getLast?
        = some ("7".toList))
    ∧ Metrics.extract_answer_number ("7".toList)
        = Metrics.PyFloat.val (Metrics.strToRat ("7".toList)) :=
  ⟨by decide, (claim_C10 ("7".toList) ("7".toList) (by decide)).1⟩
